import Mathlib

/-!
Verification of the outline parser and build pipeline of `build_chm.py`.

The Python source is embedded shallowly.  Python strings are modelled as
`String`/`List Char` (Python indexes code points, as does `String.data`),
the mutable parser state of `parse_markdown` is an explicit record, and the
regular expressions of the source are translated to executable
character-list functions, specialised — where noted — to the stripped
arguments the source applies them to.  Decimal digits (`\d`) are modelled
over the ASCII range, which covers every digit the inputs of this tool and
the claims exercise; whitespace (`\s`, `str.strip`) is modelled with
Python's whitespace set.  File reading and writing are I/O and stay outside
the model: `parse_markdown` receives the `splitlines()` result directly,
and of `build_site` the filename-assignment passes (source lines 143-153)
are embedded.
-/

namespace BuildChm

/-- Python's whitespace predicate (`str.isspace`, regex `\s`). -/
def isPySpace (c : Char) : Bool :=
  let n := c.toNat
  (decide (9 ≤ n) && decide (n ≤ 13)) || (decide (28 ≤ n) && decide (n ≤ 31)) ||
  n == 32 || n == 0x85 || n == 0xa0 || n == 0x1680 ||
  (decide (0x2000 ≤ n) && decide (n ≤ 0x200a)) || n == 0x2028 || n == 0x2029 ||
  n == 0x202f || n == 0x205f || n == 0x3000

/-- Python `str.strip()` at the character-list level: drop whitespace from the
left, then from the right. -/
def pyStripL (l : List Char) : List Char :=
  ((l.dropWhile isPySpace).reverse.dropWhile isPySpace).reverse

/-- Python `str.strip()`. -/
def pyStrip (s : String) : String := String.mk (pyStripL s.data)

/-- The per-character substitution of `_normalize_group_title`: each of the
three `str.replace` calls has single-character arguments
(`DOT_JP = U+30FB`, `DOT_CN = U+00B7`, `"?"`, `U+00A0`), so the chain
`.replace(DOT_JP, DOT_CN).replace("?", DOT_CN).replace(" ", " ")`
is the composed character map below (the first two replacements never
produce a character the later ones rewrite). -/
def mapDots (c : Char) : Char :=
  if c = '・' then '·'
  else if c = '?' then '·'
  else if c = '\u00A0' then ' '
  else c

/-- Source `_normalize_group_title` at the character-list level. -/
def normalizeGroupTitleL (l : List Char) : List Char := pyStripL (l.map mapDots)

/-- Embedding of `_normalize_group_title` (source lines 41-47). -/
def normalize_group_title (s : String) : String :=
  String.mk (normalizeGroupTitleL s.data)

/-- The `re.sub(r"\s*\d+\s*$", "", s)` of `_normalize_entry`.  The argument
is already stripped, so the pattern's trailing `\s*` is empty and the
single (leftmost) match is the maximal trailing digit run together with the
maximal whitespace run immediately before it; if the string does not end in
a digit there is no match. -/
def stripTrailingNum (l : List Char) : List Char :=
  let r := l.reverse
  if (r.takeWhile Char.isDigit).isEmpty then l
  else ((r.dropWhile Char.isDigit).dropWhile isPySpace).reverse

/-- The branch cascade of `_normalize_entry` on the stripped input: discard
`***...` decorations and `==...==` marker lines, strip a trailing page
number, strip again. -/
def normalizeEntryCore (s : List Char) : List Char :=
  if s.isEmpty then []
  else if s.take 3 = ['*', '*', '*'] then []
  else if s.take 2 = ['=', '='] ∧ s.drop (s.length - 2) = ['=', '='] then []
  else pyStripL (stripTrailingNum s)

/-- Source `_normalize_entry` at the character-list level (source lines 50-59). -/
def normalizeEntryL (l : List Char) : List Char :=
  normalizeEntryCore (pyStripL l)

/-- Embedding of `_normalize_entry`. -/
def normalize_entry (s : String) : String := String.mk (normalizeEntryL s.data)

/-- The `Group` dataclass (source lines 20-24). -/
structure Group where
  title : String
  entries : List String
  file : String := ""
deriving DecidableEq

/-- The `Subcategory` dataclass (source lines 27-31). -/
structure Subcategory where
  title : String
  groups : List Group := []
  file : String := ""
deriving DecidableEq

/-- The `Category` dataclass (source lines 34-38). -/
structure Category where
  title : String
  subcategories : List Subcategory := []
  file : String := ""
deriving DecidableEq

/-- Matching `BOLD_RE = ^\*\*(.+)\*\*$` against a line: the regex matches iff the
line starts with `**`, ends with `**`, has at least one character in
between, and that middle contains no newline (`.` excludes newlines); the
greedy group is everything strictly between the first two and the last two
characters. -/
def boldInner? (l : List Char) : Option (List Char) :=
  match l with
  | '*' :: '*' :: rest =>
    match rest.reverse with
    | '*' :: '*' :: midRev =>
      if midRev.isEmpty then none
      else if midRev.all (fun c => c != '\n') then some midRev.reverse else none
    | _ => none
  | _ => none

/-- Matching `PAGE_BOLD_NUM_RE = ^\d+$` on the stripped title. -/
def isAllDigits (l : List Char) : Bool := !l.isEmpty && l.all Char.isDigit

/-- After at least one digit was consumed by `\d+`: keep consuming digits,
then require one whitespace character (`\s+` needs at least one). -/
def digitsThenSpaceAux : List Char → Bool
  | [] => false
  | c :: r => if c.isDigit then digitsThenSpaceAux r else isPySpace c

/-- Prefix match of `re.match(r"^\d+\s+", title)` (source line 95). -/
def digitsThenSpace : List Char → Bool
  | [] => false
  | c :: r => c.isDigit && digitsThenSpaceAux r

/-- Matching `SUBCATEGORY_RE = ^(\d+)\.\s*(.+)$` on the stripped title: the greedy
`(\d+)` is the maximal digit prefix, which must be non-empty and followed
by a literal dot; `\s*` then consumes the following whitespace and `(.+)`
needs at least one remaining character.  (Because the argument is stripped
and newline-free, the greedy `\s*` never has to backtrack.) -/
def subcatMatch? (l : List Char) : Option (List Char × List Char) :=
  let ds := l.takeWhile Char.isDigit
  if ds.isEmpty then none
  else
    match l.dropWhile Char.isDigit with
    | '.' :: rest =>
      let name := rest.dropWhile isPySpace
      if name.isEmpty then none else some (ds, name)
    | _ => none

def screenshotMarker : List Char := "==Screenshot for page".data

/-- Matching `SCREENSHOT_RE = ^==Screenshot for page\s*\d+==\s*$` on a stripped line
(the source matches it against `raw.strip()`, so the trailing `\s*` is
necessarily empty). -/
def screenshotMatch (l : List Char) : Bool :=
  l.take screenshotMarker.length == screenshotMarker &&
  (let r := (l.drop screenshotMarker.length).dropWhile isPySpace
   let ds := r.takeWhile Char.isDigit
   !ds.isEmpty && r.drop ds.length == ['=', '='])

/-- The classification a line receives from the ordered rule cascade of
`parse_markdown` (source lines 81-127). -/
inductive LineKind where
  | blank
  | screenshot
  | digitsBold (title : List Char)
  | numHeading (title : List Char)
  | catHeading (title : List Char)
  | subHeading (ds name : List Char)
  | groupHeading (title : List Char)
  | entryLine (l : List Char)
deriving DecidableEq

/-- The line classifier of `parse_markdown`, in source order: strip; skip
empty lines and screenshot markers; for `**...**` lines strip the inner
title and apply, in order, the pure-digits rule, the digits-plus-space
rule, the category rule (`、` present, ends in `类`, not
subcategory-shaped), the subcategory rule; otherwise the line is a group
heading; non-bold lines are entry lines. -/
def classify (raw : String) : LineKind :=
  let line := pyStripL raw.data
  if line.isEmpty then .blank
  else if screenshotMatch line then .screenshot
  else
    match boldInner? line with
    | some mid =>
      let title := pyStripL mid
      if isAllDigits title then .digitsBold title
      else if digitsThenSpace title && (subcatMatch? title).isNone then .numHeading title
      else if title.contains '、' && title.getLast? == some '类' &&
              (subcatMatch? title).isNone then .catHeading title
      else
        match subcatMatch? title with
        | some (ds, name) => .subHeading ds name
        | none => .groupHeading title
    | none => .entryLine line

/-- Parser state of `parse_markdown`.  `cats` is the `categories` list;
`cur_cat` is non-`None` exactly when `cats` is non-empty and then always
denotes its last element (the source only ever appends categories and never
resets `cur_cat` to `None`); `hasSub` records whether `cur_sub` is set, and
when it is, `cur_sub` is the last subcategory of the last category (new
subcategories are appended to `cur_cat` and `cur_sub` is reset on every new
category).  `pending`/`entries` are `cur_group_title`/`cur_entries`; the
source tests `cur_group_title` for truthiness, which the model does with
`truthy` (distinguishing `None` and the empty string from real titles). -/
structure PState where
  cats : List Category
  hasSub : Bool
  pending : Option (List Char)
  entries : List String
deriving DecidableEq

/-- Python truthiness of `cur_group_title : str | None`. -/
def truthy : Option (List Char) → Bool
  | none => false
  | some t => !t.isEmpty

def initState : PState := ⟨[], false, none, []⟩

/-- Replace the last element of a list (used to modify the structures
`cur_cat`/`cur_sub` point at). -/
def modLast (f : α → α) : List α → List α
  | [] => []
  | [a] => [f a]
  | a :: b :: rest => a :: modLast f (b :: rest)

/-- Source `cur_sub.groups.append(...)`: `cur_sub` is the last subcategory of the
last category. -/
def appendGroupLast (cats : List Category) (g : Group) : List Category :=
  modLast (fun c =>
    { c with subcategories :=
        modLast (fun s => { s with groups := s.groups ++ [g] }) c.subcategories })
    cats

/-- Embedding of the closure `flush_group` (source lines 72-79): if a group
title is pending (truthy) and a subcategory is current, append the
normalized group; in every case clear the pending title and entries. -/
def flushGroup (st : PState) : PState :=
  if truthy st.pending && st.hasSub then
    ⟨appendGroupLast st.cats
      ⟨String.mk (normalizeGroupTitleL (st.pending.getD [])), st.entries, ""⟩,
     st.hasSub, none, []⟩
  else ⟨st.cats, st.hasSub, none, []⟩

/-- One iteration of the line loop of `parse_markdown` (source lines
81-127). -/
def step (st : PState) (raw : String) : PState :=
  match classify raw with
  | .blank => st
  | .screenshot => st
  | .digitsBold _ => st
  | .numHeading _ => flushGroup st
  | .catHeading t =>
    let st1 := flushGroup st
    ⟨st1.cats ++ [⟨String.mk t, [], ""⟩], false, st1.pending, st1.entries⟩
  | .subHeading ds name =>
    let st1 := flushGroup st
    let base := if st1.cats.isEmpty then st1.cats ++ [⟨"未分类", [], ""⟩] else st1.cats
    ⟨modLast (fun c =>
        { c with subcategories :=
            c.subcategories ++ [⟨String.mk (ds ++ '.' :: ' ' :: pyStripL name), [], ""⟩] })
      base,
     true, st1.pending, st1.entries⟩
  | .groupHeading t =>
    let st1 := flushGroup st
    ⟨st1.cats, st1.hasSub, some t, st1.entries⟩
  | .entryLine l =>
    if truthy st.pending then
      let n := normalizeEntryL l
      if n.isEmpty then st
      else ⟨st.cats, st.hasSub, st.pending, st.entries ++ [String.mk n]⟩
    else st

/-- Embedding of `parse_markdown` (source lines 62-130) on the
`splitlines()` result of the input file. -/
def parse_markdown (lines : List String) : List Category :=
  (flushGroup (lines.foldl step initState)).cats

/-! ### Whitespace-stripping toolbox -/

/-- Left half of `pyStripL`. -/
def stripLeft (l : List Char) : List Char := l.dropWhile isPySpace

/-- Right half of `pyStripL`. -/
def stripRight (l : List Char) : List Char := (l.reverse.dropWhile isPySpace).reverse

lemma pyStripL_decompose (l : List Char) :
    pyStripL l = stripRight (stripLeft l) := rfl

lemma head?_dropWhile_false {α : Type} (p : α → Bool) (l : List α) (c : α)
    (h : (l.dropWhile p).head? = some c) : p c = false := by
  induction l with
  | nil => simp [List.dropWhile] at h
  | cons a t ih =>
    rw [List.dropWhile_cons] at h
    by_cases hp : p a = true
    · rw [if_pos hp] at h
      exact ih h
    · rw [Bool.not_eq_true] at hp
      rw [hp] at h
      simp only [Bool.false_eq_true, if_false, List.head?_cons, Option.some.injEq] at h
      subst h
      exact hp

lemma dropWhile_eq_self_of_head {α : Type} (p : α → Bool) (l : List α)
    (h : ∀ c, l.head? = some c → p c = false) : l.dropWhile p = l := by
  cases l with
  | nil => rfl
  | cons a t =>
    rw [List.dropWhile_cons]
    simp [h a rfl]

lemma dropWhile_idem {α : Type} (p : α → Bool) (l : List α) :
    (l.dropWhile p).dropWhile p = l.dropWhile p :=
  dropWhile_eq_self_of_head p _ (fun c h => head?_dropWhile_false p l c h)

lemma stripLeft_idem (l : List Char) : stripLeft (stripLeft l) = stripLeft l :=
  dropWhile_idem _ l

lemma stripRight_idem (l : List Char) : stripRight (stripRight l) = stripRight l := by
  unfold stripRight
  rw [List.reverse_reverse, dropWhile_idem]

lemma stripRight_isPrefixOf (l : List Char) : stripRight l <+: l := by
  have h := @List.dropWhile_suffix Char l.reverse isPySpace
  have h2 := (@List.reverse_prefix Char (List.dropWhile isPySpace l.reverse)
    l.reverse).mpr h
  rw [List.reverse_reverse] at h2
  exact h2

lemma isPrefix_head?_eq {α : Type} {l₁ l₂ : List α} (h : l₁ <+: l₂)
    {c : α} (hc : l₁.head? = some c) : l₂.head? = some c := by
  obtain ⟨t, rfl⟩ := h
  cases l₁ with
  | nil => simp at hc
  | cons a l => simpa using hc

lemma head?_stripRight {l : List Char} {c : Char}
    (h : (stripRight l).head? = some c) : l.head? = some c :=
  isPrefix_head?_eq (stripRight_isPrefixOf l) h

lemma stripLeft_stripRight_stripLeft (l : List Char) :
    stripLeft (stripRight (stripLeft l)) = stripRight (stripLeft l) :=
  dropWhile_eq_self_of_head _ _
    (fun c h => head?_dropWhile_false isPySpace l c (head?_stripRight h))

lemma pyStripL_idem (l : List Char) : pyStripL (pyStripL l) = pyStripL l := by
  rw [pyStripL_decompose, pyStripL_decompose, stripLeft_stripRight_stripLeft,
    stripRight_idem]

lemma mem_of_mem_pyStripL {c : Char} {l : List Char} (h : c ∈ pyStripL l) : c ∈ l := by
  rw [pyStripL_decompose] at h
  have h1 : c ∈ stripLeft l :=
    ((stripRight_isPrefixOf (stripLeft l)).sublist).mem h
  exact (List.dropWhile_sublist isPySpace).mem h1

lemma all_space_of_pyStripL_eq_nil {l : List Char} (h : pyStripL l = []) :
    ∀ c ∈ l, isPySpace c = true := by
  rw [pyStripL_decompose] at h
  unfold stripRight at h
  rw [List.reverse_eq_nil_iff] at h
  have h1 : ∀ c ∈ (stripLeft l).reverse, isPySpace c = true :=
    List.dropWhile_eq_nil_iff.mp h
  have h2 : ∀ c ∈ stripLeft l, isPySpace c = true := by
    intro c hc
    exact h1 c (List.mem_reverse.mpr hc)
  intro c hc
  have hsplit : c ∈ l.takeWhile isPySpace ++ l.dropWhile isPySpace := by
    rw [List.takeWhile_append_dropWhile]
    exact hc
  rcases List.mem_append.mp hsplit with h3 | h3
  · exact List.mem_takeWhile_imp h3
  · exact h2 c h3

lemma stripped_head_not_space {c : Char} {t : List Char}
    (h : pyStripL (c :: t) = c :: t) : isPySpace c = false := by
  by_contra hws
  rw [Bool.not_eq_false] at hws
  have hlen : (pyStripL (c :: t)).length ≤ t.length := by
    rw [pyStripL_decompose]
    have h1 : (stripRight (stripLeft (c :: t))).length ≤ (stripLeft (c :: t)).length :=
      ((stripRight_isPrefixOf _).sublist).length_le
    have h2 : (stripLeft (c :: t)).length ≤ t.length := by
      unfold stripLeft
      rw [List.dropWhile_cons]
      simp only [hws, if_true]
      exact (List.dropWhile_sublist isPySpace).length_le
    exact le_trans h1 h2
  rw [h] at hlen
  simp at hlen

/-! ### Normalizer lemmas -/

lemma pyStripL_nil : pyStripL [] = [] := rfl

lemma normalizeEntryL_stripped (l : List Char) :
    pyStripL (normalizeEntryL l) = normalizeEntryL l := by
  unfold normalizeEntryL normalizeEntryCore
  split_ifs <;> first | exact pyStripL_nil | exact pyStripL_idem _

lemma normalizeEntryL_strippedCore (s : List Char) :
    pyStripL (normalizeEntryCore s) = normalizeEntryCore s := by
  unfold normalizeEntryCore
  split_ifs <;> first | exact pyStripL_nil | exact pyStripL_idem _

lemma mapDots_idem (c : Char) : mapDots (mapDots c) = mapDots c := by
  by_cases h1 : c = '・'
  · subst h1; decide
  by_cases h2 : c = '?'
  · subst h2; decide
  by_cases h3 : c = '\u00A0'
  · subst h3; decide
  simp [mapDots, h1, h2, h3]

lemma mapDots_not_space {c : Char} (h : isPySpace c = false) :
    isPySpace (mapDots c) = false := by
  unfold mapDots
  split_ifs with h1 h2 h3
  · decide
  · decide
  · exact absurd h (by subst h3; decide)
  · exact h

lemma normalizeGroupTitleL_ne_nil {t : List Char}
    (hne : t ≠ []) (hs : pyStripL t = t) : normalizeGroupTitleL t ≠ [] := by
  intro hcontra
  unfold normalizeGroupTitleL at hcontra
  have hall := all_space_of_pyStripL_eq_nil hcontra
  cases t with
  | nil => exact hne rfl
  | cons c t0 =>
    have hc : isPySpace c = false := stripped_head_not_space hs
    have hmem : mapDots c ∈ (c :: t0).map mapDots := by simp
    have := hall (mapDots c) hmem
    rw [mapDots_not_space hc] at this
    exact Bool.false_ne_true this

/-! ### Helper lemmas about the parser state machine -/

lemma flushGroup_pending (st : PState) : (flushGroup st).pending = none := by
  unfold flushGroup
  split <;> rfl

lemma flushGroup_entries (st : PState) : (flushGroup st).entries = [] := by
  unfold flushGroup
  split <;> rfl

lemma flushGroup_hasSub (st : PState) : (flushGroup st).hasSub = st.hasSub := by
  unfold flushGroup
  split <;> rfl

lemma flushGroup_cats_of_nil {st : PState} (h : st.cats = []) :
    (flushGroup st).cats = [] := by
  unfold flushGroup
  split <;> simp [h, appendGroupLast, modLast]

/-! ### Claim C1 -/

/-- C1: on the six example lines the parser produces exactly one category
`一、人体类` with one subcategory `1. 手臂动作` with one group `挥手` whose
entries are `抬起手臂` (trailing ` 3` stripped) and `放下手臂` (the
screenshot marker line is skipped). -/
theorem c1_example_parse :
    parse_markdown
      ["**一、人体类**", "**1. 手臂动作**", "**挥手**", "抬起手臂 3",
       "==Screenshot for page 5==", "放下手臂"] =
      [⟨"一、人体类",
        [⟨"1. 手臂动作", [⟨"挥手", ["抬起手臂", "放下手臂"], ""⟩], ""⟩], ""⟩] := by
  decide

/-! ### Claim C9 -/

/-- C9: the parser is a pure function of its input lines, so parsing the
same input twice yields structurally identical trees. -/
theorem c9_parser_deterministic :
    ∀ lines : List String, parse_markdown lines = parse_markdown lines :=
  fun _ => rfl

/-! ### Claim C7 -/

/-- C7: `_normalize_group_title` is idempotent. -/
theorem c7_normalize_group_title_idem :
    ∀ x : String, normalize_group_title (normalize_group_title x) = normalize_group_title x := by
  intro x
  unfold normalize_group_title
  apply String.ext
  show normalizeGroupTitleL (normalizeGroupTitleL x.data) = normalizeGroupTitleL x.data
  unfold normalizeGroupTitleL
  have hmap : (pyStripL (x.data.map mapDots)).map mapDots
      = pyStripL (x.data.map mapDots) := by
    have h1 : ∀ a ∈ pyStripL (x.data.map mapDots), mapDots a = id a := by
      intro a ha
      obtain ⟨c, _, rfl⟩ := List.mem_map.mp (mem_of_mem_pyStripL ha)
      exact mapDots_idem c
    rw [List.map_congr_left h1, List.map_id]
  rw [hmap, pyStripL_idem]

/-! ### Claim C3 -/

/-- C3 counterexample: a subcategory heading with no preceding category
heading makes the parser synthesize a category titled `未分类`, which is not
the ASCII string `unclassified` the claim names. -/
theorem c3_counterexample :
    parse_markdown ["**1. 手臂动作**"] =
      [⟨"未分类", [⟨"1. 手臂动作", [], ""⟩], ""⟩] ∧
    ("未分类" : String) ≠ "unclassified" := by
  constructor
  · decide
  · decide

/-- C3 (amended): processing a subcategory-shaped bold heading while the
category list is still empty synthesizes a category titled `未分类`
("unclassified"), appends it to the category list, and attaches the new
subcategory to it; no subcategory data is dropped (the containment of every
subcategory in a category is intrinsic to the tree type). -/
theorem c3_unclassified_synthesis :
    ∀ (st : PState) (raw : String) (ds name : List Char),
      classify raw = .subHeading ds name → st.cats = [] →
      step st raw =
        ⟨[⟨"未分类", [⟨String.mk (ds ++ '.' :: ' ' :: pyStripL name), [], ""⟩], ""⟩],
         true, none, []⟩ := by
  intro st raw ds name h hc
  simp only [step, h]
  rw [flushGroup_cats_of_nil hc, flushGroup_pending, flushGroup_entries]
  rfl

/-- C3 witness. -/
theorem c3_unclassified_synthesis_witness :
    step initState "**1. 手臂动作**" =
      ⟨[⟨"未分类",
         [⟨String.mk (['1'] ++ '.' :: ' ' :: pyStripL ['手', '臂', '动', '作']), [], ""⟩],
         ""⟩],
       true, none, []⟩ :=
  c3_unclassified_synthesis initState "**1. 手臂动作**" ['1'] ['手', '臂', '动', '作']
    (by decide) rfl

/-! ### Claim C4 -/

/-- Does the classifier treat this raw line as a group heading? -/
def isGroupHeadingLine (raw : String) : Bool :=
  match classify raw with
  | .groupHeading _ => true
  | _ => false

/-- C4: a bold line whose inner title starts with digits followed by
whitespace and is not subcategory-shaped only flushes the pending group —
its whole effect is `flushGroup`, which creates no node beyond the flush
and leaves no pending title; afterwards every non-bold (entry) line
processed with no pending title leaves the state unchanged, and the pending
title stays `none` across every line that is not a group heading. -/
theorem c4_numeric_heading_flush_only :
    ∀ (raw : String) (t : List Char), classify raw = .numHeading t →
      (∀ st : PState, step st raw = flushGroup st ∧ (step st raw).pending = none) ∧
      (∀ (st2 : PState) (raw2 : String) (l : List Char),
        classify raw2 = .entryLine l → st2.pending = none → step st2 raw2 = st2) ∧
      (∀ (st3 : PState) (raw3 : String), st3.pending = none →
        isGroupHeadingLine raw3 = false → (step st3 raw3).pending = none) := by
  intro raw t h
  refine ⟨fun st => ⟨by simp only [step, h], ?_⟩, ?_, ?_⟩
  · simp only [step, h]
    exact flushGroup_pending st
  · intro st2 raw2 l h2 hp2
    simp only [step, h2, hp2, truthy, Bool.false_eq_true, if_false]
  · intro st3 raw3 hp3 hg3
    unfold isGroupHeadingLine at hg3
    cases h3 : classify raw3 with
    | blank => simpa [step, h3] using hp3
    | screenshot => simpa [step, h3] using hp3
    | digitsBold t3 => simpa [step, h3] using hp3
    | numHeading t3 => simp only [step, h3]; exact flushGroup_pending st3
    | catHeading t3 => simp only [step, h3]; exact flushGroup_pending st3
    | subHeading ds3 name3 => simp only [step, h3]; exact flushGroup_pending st3
    | groupHeading t3 => rw [h3] at hg3; simp at hg3
    | entryLine l3 =>
      simp only [step, h3, hp3, truthy, Bool.false_eq_true, if_false]

/-- C4 witness. -/
theorem c4_numeric_heading_flush_only_witness :
    (step initState "**10 分类细目**" = flushGroup initState ∧
      (step initState "**10 分类细目**").pending = none) ∧
    step initState "放下手臂" = initState ∧
    (step initState "**一、人体类**").pending = none := by
  have H := c4_numeric_heading_flush_only "**10 分类细目**"
    ['1', '0', ' ', '分', '类', '细', '目'] (by decide)
  exact ⟨H.1 initState,
    H.2.1 initState "放下手臂" ['放', '下', '手', '臂'] (by decide) rfl,
    H.2.2 initState "**一、人体类**" rfl (by decide)⟩

/-! ### Claim C5 -/

/-- C5: a bold line whose stripped inner title is purely digits is skipped
with no state change at all — in particular it flushes nothing — and the
parse of any input containing such a line equals the parse of the same
input with the line removed. -/
theorem c5_pure_digit_bold_noop :
    ∀ (raw : String) (t : List Char), classify raw = .digitsBold t →
      (∀ st : PState, step st raw = st) ∧
      (∀ pre post : List String,
        parse_markdown (pre ++ raw :: post) = parse_markdown (pre ++ post)) := by
  intro raw t h
  have h1 : ∀ st : PState, step st raw = st := fun st => by simp only [step, h]
  refine ⟨h1, fun pre post => ?_⟩
  unfold parse_markdown
  rw [List.foldl_append, List.foldl_append, List.foldl_cons, h1]

/-- C5 witness. -/
theorem c5_pure_digit_bold_noop_witness :
    parse_markdown (["**一、人体类**", "**1. 手臂动作**", "**挥手**", "抬起手臂 3"]
        ++ "**42**" :: ["放下手臂"]) =
      parse_markdown (["**一、人体类**", "**1. 手臂动作**", "**挥手**", "抬起手臂 3"]
        ++ ["放下手臂"]) :=
  (c5_pure_digit_bold_noop "**42**" ['4', '2'] (by decide)).2
    ["**一、人体类**", "**1. 手臂动作**", "**挥手**", "抬起手臂 3"] ["放下手臂"]

/-! ### Claim C6 -/

/-- C6: when no subcategory is current, `flush_group` appends no group
anywhere (the category list is unchanged) and merely clears the pending
title and entries; it never fails (it is a total function). -/
theorem c6_orphan_group_dropped :
    ∀ st : PState, st.hasSub = false →
      (flushGroup st).cats = st.cats ∧ (flushGroup st).pending = none ∧
      (flushGroup st).entries = [] := by
  intro st h
  unfold flushGroup
  rw [h]
  simp

/-- C6 witness: a pending group title with accumulated entries and no
current subcategory is dropped. -/
theorem c6_orphan_group_dropped_witness :
    (flushGroup ⟨[], false, some ['挥', '手'], ["抬起手臂"]⟩).cats = [] ∧
    (flushGroup ⟨[], false, some ['挥', '手'], ["抬起手臂"]⟩).pending = none ∧
    (flushGroup ⟨[], false, some ['挥', '手'], ["抬起手臂"]⟩).entries = [] :=
  c6_orphan_group_dropped ⟨[], false, some ['挥', '手'], ["抬起手臂"]⟩ rfl

/-! ### Generic invariants of the parser state machine

`AllGroups P cats` says every group of the tree satisfies `P`; it is
preserved by each of the three tree-extending operations of `step`. -/

def AllGroups (P : Group → Prop) (cats : List Category) : Prop :=
  ∀ c ∈ cats, ∀ s ∈ c.subcategories, ∀ g ∈ s.groups, P g

lemma mem_modLast {α : Type} (f : α → α) (l : List α) (x : α)
    (h : x ∈ modLast f l) : x ∈ l ∨ ∃ y ∈ l, x = f y := by
  induction l with
  | nil => simp [modLast] at h
  | cons a t ih =>
    cases t with
    | nil =>
      simp only [modLast, List.mem_singleton] at h
      exact Or.inr ⟨a, by simp, h⟩
    | cons b r =>
      rw [show modLast f (a :: b :: r) = a :: modLast f (b :: r) from rfl] at h
      rcases List.mem_cons.mp h with h1 | h1
      · exact Or.inl (by simp [h1])
      · rcases ih h1 with h2 | h2
        · exact Or.inl (List.mem_cons_of_mem a h2)
        · obtain ⟨y, hy, rfl⟩ := h2
          exact Or.inr ⟨y, List.mem_cons_of_mem a hy, rfl⟩

lemma allGroups_appendGroupLast {P : Group → Prop} {cats : List Category} {g : Group}
    (hc : AllGroups P cats) (hg : P g) : AllGroups P (appendGroupLast cats g) := by
  intro c hcmem s hsmem g2 hg2
  unfold appendGroupLast at hcmem
  rcases mem_modLast _ _ _ hcmem with h1 | ⟨y, hy, rfl⟩
  · exact hc c h1 s hsmem g2 hg2
  · rcases mem_modLast _ _ _ hsmem with h2 | ⟨s0, hs0, rfl⟩
    · exact hc y hy s h2 g2 hg2
    · rcases List.mem_append.mp hg2 with h3 | h3
      · exact hc y hy s0 hs0 g2 h3
      · have h4 : g2 = g := by simpa using h3
        subst h4
        exact hg

lemma allGroups_append_cat {P : Group → Prop} {cats : List Category}
    (hc : AllGroups P cats) (title0 file0 : String) :
    AllGroups P (cats ++ [⟨title0, [], file0⟩]) := by
  intro c hcmem s hsmem g hg
  rcases List.mem_append.mp hcmem with h1 | h1
  · exact hc c h1 s hsmem g hg
  · have h2 : c = ⟨title0, [], file0⟩ := by simpa using h1
    subst h2
    simp at hsmem

lemma allGroups_append_sub {P : Group → Prop} {cats : List Category}
    (hc : AllGroups P cats) (title0 file0 : String) :
    AllGroups P (modLast (fun c =>
      { c with subcategories := c.subcategories ++ [⟨title0, [], file0⟩] }) cats) := by
  intro c hcmem s hsmem g hg
  rcases mem_modLast _ _ _ hcmem with h1 | ⟨y, hy, rfl⟩
  · exact hc c h1 s hsmem g hg
  · rcases List.mem_append.mp hsmem with h2 | h2
    · exact hc y hy s h2 g hg
    · have h3 : s = ⟨title0, [], file0⟩ := by simpa using h2
      subst h3
      simp at hg

/-! ### Claim C2 -/

/-- A trailing run of whitespace followed by digits — the suffix shape the
claim says never survives in an entry. -/
def endsWsDigits (l : List Char) : Bool :=
  let r := l.reverse
  let ds := r.takeWhile Char.isDigit
  !ds.isEmpty &&
    (match r.drop ds.length with
     | c :: _ => isPySpace c
     | [] => false)

/-- C2 counterexample: from the source line `abc 12 34` the tree keeps the
entry `abc 12`, which still ends in whitespace followed by digits — the
`re.sub(r"\s*\d+\s*$", "", ...)` of `_normalize_entry` removes only the
final such run. -/
theorem c2_counterexample :
    parse_markdown ["**一、人体类**", "**1. 手臂动作**", "**G**", "abc 12 34"] =
      [⟨"一、人体类", [⟨"1. 手臂动作", [⟨"G", ["abc 12"], ""⟩], ""⟩], ""⟩] ∧
    endsWsDigits ("abc 12" : String).data = true := by
  constructor <;> decide

/-- The shape every entry of the final tree has: non-empty and fixed by
`str.strip` (no leading or trailing whitespace). -/
def EntryOK (e : String) : Prop := e ≠ "" ∧ pyStripL e.data = e.data

/-- C2 invariant: every stored entry and every accumulated pending entry is
normalized. -/
def InvC2 (st : PState) : Prop :=
  AllGroups (fun g => ∀ e ∈ g.entries, EntryOK e) st.cats ∧
  ∀ e ∈ st.entries, EntryOK e

lemma stringMk_ne_empty {l : List Char} (h : l ≠ []) : String.mk l ≠ "" := by
  intro hc
  exact h (by simpa using congrArg String.data hc)

lemma flushGroup_InvC2 {st : PState} (h : InvC2 st) : InvC2 (flushGroup st) := by
  unfold flushGroup
  split
  · refine ⟨allGroups_appendGroupLast h.1 ?_, by intro e he; simp at he⟩
    intro e he
    exact h.2 e he
  · exact ⟨h.1, by intro e he; simp at he⟩

lemma step_InvC2 {st : PState} (raw : String) (h : InvC2 st) : InvC2 (step st raw) := by
  have hf := flushGroup_InvC2 h
  cases hcl : classify raw with
  | blank => simpa only [step, hcl] using h
  | screenshot => simpa only [step, hcl] using h
  | digitsBold t => simpa only [step, hcl] using h
  | numHeading t => simpa only [step, hcl] using hf
  | catHeading t =>
    simp only [step, hcl]
    refine ⟨allGroups_append_cat hf.1 _ _, ?_⟩
    intro e he
    rw [flushGroup_entries] at he
    simp at he
  | subHeading ds name =>
    simp only [step, hcl]
    constructor
    · have hbase : AllGroups (fun g => ∀ e ∈ g.entries, EntryOK e)
          (if (flushGroup st).cats.isEmpty
           then (flushGroup st).cats ++ [⟨"未分类", [], ""⟩]
           else (flushGroup st).cats) := by
        split
        · exact allGroups_append_cat hf.1 _ _
        · exact hf.1
      exact allGroups_append_sub hbase _ _
    · intro e he
      rw [flushGroup_entries] at he
      simp at he
  | groupHeading t =>
    simp only [step, hcl]
    refine ⟨hf.1, ?_⟩
    intro e he
    rw [flushGroup_entries] at he
    simp at he
  | entryLine l =>
    by_cases ht : truthy st.pending = true
    · by_cases hn : (normalizeEntryL l).isEmpty = true
      · simp only [step, hcl]
        rw [if_pos ht, if_pos hn]
        exact h
      · simp only [step, hcl]
        rw [if_pos ht, if_neg hn]
        refine ⟨h.1, ?_⟩
        intro e he
        rcases List.mem_append.mp he with h1 | h1
        · exact h.2 e h1
        · have h2 : e = String.mk (normalizeEntryL l) := by simpa using h1
          subst h2
          refine ⟨stringMk_ne_empty ?_, normalizeEntryL_stripped l⟩
          intro hnil
          exact hn (by simp [hnil])
    · simp only [step, hcl]
      rw [if_neg ht]
      exact h

lemma foldl_InvC2 (lines : List String) :
    ∀ st : PState, InvC2 st → InvC2 (lines.foldl step st) := by
  induction lines with
  | nil => intro st h; exact h
  | cons a t ih =>
    intro st h
    exact ih _ (step_InvC2 a h)

/-- C2 (amended): every entry string in the final parsed tree is non-empty
and has no leading or trailing whitespace (it is a fixed point of
`str.strip`).  The further guarantee of the original claim — that no entry
ends in whitespace followed by digits — does not hold, because the
normalization removes only the last such run (see the counterexample). -/
theorem c2_entries_nonempty_stripped :
    ∀ lines : List String, ∀ c ∈ parse_markdown lines, ∀ s ∈ c.subcategories,
      ∀ g ∈ s.groups, ∀ e ∈ g.entries, e ≠ "" ∧ pyStripL e.data = e.data := by
  intro lines c hc s hs g hg e he
  have h0 : InvC2 initState := by
    constructor
    · intro c2 hc2
      simp [initState] at hc2
    · intro e2 he2
      simp [initState] at he2
  have hinv := flushGroup_InvC2 (foldl_InvC2 lines initState h0)
  exact hinv.1 c hc s hs g hg e he

/-- C2 witness. -/
theorem c2_entries_nonempty_stripped_witness :
    ("抬起手臂" : String) ≠ "" ∧
    pyStripL ("抬起手臂" : String).data = ("抬起手臂" : String).data :=
  c2_entries_nonempty_stripped
    ["**一、人体类**", "**1. 手臂动作**", "**挥手**", "抬起手臂 3", "放下手臂"]
    ⟨"一、人体类", [⟨"1. 手臂动作", [⟨"挥手", ["抬起手臂", "放下手臂"], ""⟩], ""⟩], ""⟩
    (by decide)
    ⟨"1. 手臂动作", [⟨"挥手", ["抬起手臂", "放下手臂"], ""⟩], ""⟩ (by decide)
    ⟨"挥手", ["抬起手臂", "放下手臂"], ""⟩ (by decide)
    "抬起手臂" (by decide)

/-! ### Claim C10 -/

lemma truthy_eq_true {p : Option (List Char)} (h : truthy p = true) :
    ∃ t, p = some t ∧ t ≠ [] := by
  cases p with
  | none => simp [truthy] at h
  | some t =>
    cases t with
    | nil => simp [truthy] at h
    | cons c r => exact ⟨c :: r, rfl, by simp⟩

/-- The pending title a group heading installs is the stripped bold middle,
hence a fixed point of `str.strip`. -/
lemma classify_groupHeading_stripped {raw : String} {t : List Char}
    (h : classify raw = .groupHeading t) : pyStripL t = t := by
  simp only [classify] at h
  split at h
  · simp at h
  · split at h
    · simp at h
    · cases hb : boldInner? (pyStripL raw.data) with
      | none =>
        rw [hb] at h
        simp at h
      | some mid =>
        rw [hb] at h
        simp only at h
        split at h
        · simp at h
        · split at h
          · simp at h
          · split at h
            · simp at h
            · cases hs : subcatMatch? (pyStripL mid) with
              | some pr =>
                obtain ⟨ds, name⟩ := pr
                rw [hs] at h
                simp at h
              | none =>
                rw [hs] at h
                simp only [LineKind.groupHeading.injEq] at h
                rw [← h]
                exact pyStripL_idem mid

/-- C10 invariant: every group title in the tree is non-empty, and the
pending title (when present) is stripped. -/
def InvC10 (st : PState) : Prop :=
  AllGroups (fun g => g.title ≠ "") st.cats ∧
  ∀ t, st.pending = some t → pyStripL t = t

lemma flushGroup_InvC10 {st : PState} (h : InvC10 st) : InvC10 (flushGroup st) := by
  unfold flushGroup
  by_cases hcond : (truthy st.pending && st.hasSub) = true
  · rw [if_pos hcond]
    rw [Bool.and_eq_true] at hcond
    obtain ⟨t, hp, hne⟩ := truthy_eq_true hcond.1
    refine ⟨allGroups_appendGroupLast h.1 ?_, ?_⟩
    · show String.mk (normalizeGroupTitleL (st.pending.getD [])) ≠ ""
      rw [hp]
      exact stringMk_ne_empty (normalizeGroupTitleL_ne_nil hne (h.2 t hp))
    · intro t2 ht2
      simp at ht2
  · rw [if_neg hcond]
    refine ⟨h.1, ?_⟩
    intro t2 ht2
    simp at ht2

lemma step_InvC10 {st : PState} (raw : String) (h : InvC10 st) : InvC10 (step st raw) := by
  have hf := flushGroup_InvC10 h
  cases hcl : classify raw with
  | blank => simpa only [step, hcl] using h
  | screenshot => simpa only [step, hcl] using h
  | digitsBold t => simpa only [step, hcl] using h
  | numHeading t => simpa only [step, hcl] using hf
  | catHeading t =>
    simp only [step, hcl]
    refine ⟨allGroups_append_cat hf.1 _ _, ?_⟩
    intro t2 ht2
    rw [flushGroup_pending] at ht2
    simp at ht2
  | subHeading ds name =>
    simp only [step, hcl]
    constructor
    · have hbase : AllGroups (fun g => g.title ≠ "")
          (if (flushGroup st).cats.isEmpty
           then (flushGroup st).cats ++ [⟨"未分类", [], ""⟩]
           else (flushGroup st).cats) := by
        split
        · exact allGroups_append_cat hf.1 _ _
        · exact hf.1
      exact allGroups_append_sub hbase _ _
    · intro t2 ht2
      rw [flushGroup_pending] at ht2
      simp at ht2
  | groupHeading t =>
    simp only [step, hcl]
    refine ⟨hf.1, ?_⟩
    intro t2 ht2
    have h2 : t = t2 := by simpa using ht2
    subst h2
    exact classify_groupHeading_stripped hcl
  | entryLine l =>
    by_cases ht : truthy st.pending = true
    · by_cases hn : (normalizeEntryL l).isEmpty = true
      · simp only [step, hcl]
        rw [if_pos ht, if_pos hn]
        exact h
      · simp only [step, hcl]
        rw [if_pos ht, if_neg hn]
        exact ⟨h.1, h.2⟩
    · simp only [step, hcl]
      rw [if_neg ht]
      exact h

lemma foldl_InvC10 (lines : List String) :
    ∀ st : PState, InvC10 st → InvC10 (lines.foldl step st) := by
  induction lines with
  | nil => intro st h; exact h
  | cons a t ih =>
    intro st h
    exact ih _ (step_InvC10 a h)

/-- C10: every group in the parsed tree has a non-empty title.  A bold line
with empty stripped inner title leaves a pending title that Python
truthiness treats as no pending group (so it is never appended), and
`_normalize_group_title` never maps a stripped non-empty pending title to
the empty string. -/
theorem c10_group_titles_nonempty :
    ∀ lines : List String, ∀ c ∈ parse_markdown lines, ∀ s ∈ c.subcategories,
      ∀ g ∈ s.groups, g.title ≠ "" := by
  intro lines c hc s hs g hg
  have h0 : InvC10 initState := by
    constructor
    · intro c2 hc2
      simp [initState] at hc2
    · intro t2 ht2
      simp [initState] at ht2
  have hinv := flushGroup_InvC10 (foldl_InvC10 lines initState h0)
  exact hinv.1 c hc s hs g hg

/-- C10 witness. -/
theorem c10_group_titles_nonempty_witness :
    (⟨"挥手", ["抬起手臂"], ""⟩ : Group).title ≠ "" :=
  c10_group_titles_nonempty
    ["**一、人体类**", "**1. 手臂动作**", "**挥手**", "抬起手臂 3"]
    ⟨"一、人体类", [⟨"1. 手臂动作", [⟨"挥手", ["抬起手臂"], ""⟩], ""⟩], ""⟩ (by decide)
    ⟨"1. 手臂动作", [⟨"挥手", ["抬起手臂"], ""⟩], ""⟩ (by decide)
    ⟨"挥手", ["抬起手臂"], ""⟩ (by decide)

/-! ### Claim C8 — filename assignment of `build_site` (source lines 143-153) -/

/-- Decimal digit character. -/
def digitChar (d : Nat) : Char :=
  match d with
  | 0 => '0' | 1 => '1' | 2 => '2' | 3 => '3' | 4 => '4'
  | 5 => '5' | 6 => '6' | 7 => '7' | 8 => '8' | 9 => '9'
  | _ => '0'

/-- Decimal representation of a natural number (Python's `str(n)`). -/
def decRepr (n : Nat) : List Char :=
  if n = 0 then ['0'] else ((Nat.digits 10 n).map digitChar).reverse

/-- Python's zero-padded decimal format of width `w` (the `02d`/`04d`
format specifications): the decimal representation padded on the left with
zeros to width `w`. -/
def padNum (w n : Nat) : List Char :=
  List.replicate (w - (decRepr n).length) '0' ++ decRepr n

def htmlSuffix : List Char := ['.', 'h', 't', 'm', 'l']

/-- Category page filename, source line 144: letter c, the category index
zero-padded to width 2, and the html extension. -/
def fileOfCat (i : Nat) : String := String.mk ('c' :: (padNum 2 i ++ htmlSuffix))

/-- Subcategory page filename, source line 146: the category part, an s
separator, and the subcategory index zero-padded to width 2. -/
def fileOfSub (i j : Nat) : String :=
  String.mk ('c' :: (padNum 2 i ++ '_' :: 's' :: (padNum 2 j ++ htmlSuffix)))

/-- Group page filename, source line 153: letter g and the global group
counter zero-padded to width 4. -/
def fileOfGroup (k : Nat) : String := String.mk ('g' :: (padNum 4 k ++ htmlSuffix))

/-- First pass of `build_site` (source lines 143-146): `enumerate(...,
start=1)` over the categories and, nested, over their subcategories. -/
def assignSub (i : Nat) : Nat → List Subcategory → List Subcategory
  | _, [] => []
  | j, s :: ss => { s with file := fileOfSub i j } :: assignSub i (j + 1) ss

def assignCatSub : Nat → List Category → List Category
  | _, [] => []
  | i, c :: cs =>
    { c with file := fileOfCat i, subcategories := assignSub i 1 c.subcategories }
      :: assignCatSub (i + 1) cs

/-- Second pass (source lines 148-153): a single global `group_id` counter
over all groups of all categories; the counter is incremented before use,
so with `k` groups numbered so far the next file is `fileOfGroup (k+1)`. -/
def assignGroupsG : Nat → List Group → List Group × Nat
  | k, [] => ([], k)
  | k, g :: gs =>
    let rest := assignGroupsG (k + 1) gs
    ({ g with file := fileOfGroup (k + 1) } :: rest.1, rest.2)

def assignGroupsS : Nat → List Subcategory → List Subcategory × Nat
  | k, [] => ([], k)
  | k, s :: ss =>
    let gr := assignGroupsG k s.groups
    let rest := assignGroupsS gr.2 ss
    ({ s with groups := gr.1 } :: rest.1, rest.2)

def assignGroupsC : Nat → List Category → List Category × Nat
  | k, [] => ([], k)
  | k, c :: cs =>
    let sr := assignGroupsS k c.subcategories
    let rest := assignGroupsC sr.2 cs
    ({ c with subcategories := sr.1 } :: rest.1, rest.2)

/-- The filename-assignment part of `build_site`. -/
def assignFilenames (cats : List Category) : List Category :=
  (assignGroupsC 0 (assignCatSub 1 cats)).1

/-- All node filenames of a tree (categories, subcategories, groups), in
tree order. -/
def allFiles (cats : List Category) : List String :=
  cats.flatMap fun c =>
    c.file :: c.subcategories.flatMap fun s => s.file :: s.groups.map fun g => g.file

/-! #### Injectivity of the filename formats -/

def charVal (c : Char) : Nat := c.toNat - 48

/-- Big-endian decimal decoding; inverse of `padNum` (padding zeros are
high-order zero digits and do not change the value). -/
def decodeNum (l : List Char) : Nat := Nat.ofDigits 10 (l.map charVal).reverse

lemma charVal_digitChar {d : Nat} (h : d < 10) : charVal (digitChar d) = d := by
  interval_cases d <;> decide

lemma ofDigits_replicate_zero (z : Nat) :
    Nat.ofDigits 10 (List.replicate z 0) = 0 := by
  induction z with
  | zero => simp
  | succ n ih => simp [List.replicate_succ, Nat.ofDigits_cons, ih]

lemma decodeNum_decRepr (n : Nat) : decodeNum (decRepr n) = n := by
  unfold decRepr decodeNum
  by_cases h : n = 0
  · subst h; decide
  · rw [if_neg h, List.map_reverse, List.reverse_reverse, List.map_map]
    have h2 : (Nat.digits 10 n).map (charVal ∘ digitChar) = Nat.digits 10 n := by
      have h3 : ∀ d ∈ Nat.digits 10 n, (charVal ∘ digitChar) d = id d := fun d hd =>
        charVal_digitChar (Nat.digits_lt_base (by norm_num) hd)
      rw [List.map_congr_left h3, List.map_id]
    rw [h2, Nat.ofDigits_digits]

lemma decodeNum_padNum (w n : Nat) : decodeNum (padNum w n) = n := by
  unfold padNum decodeNum
  rw [List.map_append, List.map_replicate, List.reverse_append, List.reverse_replicate,
    Nat.ofDigits_append]
  have h0 : charVal '0' = 0 := rfl
  rw [h0, ofDigits_replicate_zero, mul_zero, add_zero]
  exact decodeNum_decRepr n

lemma padNum_inj {w a b : Nat} (h : padNum w a = padNum w b) : a = b := by
  have h2 := congrArg decodeNum h
  rwa [decodeNum_padNum, decodeNum_padNum] at h2

lemma digitChar_isDigit (d : Nat) : (digitChar d).isDigit = true := by
  unfold digitChar
  split <;> decide

lemma padNum_digits {w n : Nat} : ∀ c ∈ padNum w n, c.isDigit = true := by
  intro c hc
  unfold padNum at hc
  rcases List.mem_append.mp hc with h1 | h1
  · rw [List.eq_of_mem_replicate h1]; decide
  · unfold decRepr at h1
    split at h1
    · have h2 : c = '0' := by simpa using h1
      rw [h2]; decide
    · rw [List.mem_reverse] at h1
      obtain ⟨d, -, rfl⟩ := List.mem_map.mp h1
      exact digitChar_isDigit d

/-- Cancellation of all-digit prefixes before a non-digit separator. -/
lemma digit_prefix_cancel :
    ∀ (a b x y : List Char) (c d : Char), (∀ u ∈ a, u.isDigit = true) →
      (∀ u ∈ b, u.isDigit = true) → c.isDigit = false → d.isDigit = false →
      a ++ c :: x = b ++ d :: y → a = b ∧ c = d ∧ x = y := by
  intro a
  induction a with
  | nil =>
    intro b x y c d _ hb hc _ h
    cases b with
    | nil =>
      simp only [List.nil_append, List.cons.injEq] at h
      exact ⟨rfl, h.1, h.2⟩
    | cons e b2 =>
      simp only [List.nil_append, List.cons_append, List.cons.injEq] at h
      have h2 := hb e (by simp)
      rw [← h.1, hc] at h2
      simp at h2
  | cons u a2 ih =>
    intro b x y c d ha hb hc hd h
    cases b with
    | nil =>
      simp only [List.cons_append, List.nil_append, List.cons.injEq] at h
      have h2 := ha u (by simp)
      rw [h.1, hd] at h2
      simp at h2
    | cons v b2 =>
      simp only [List.cons_append, List.cons.injEq] at h
      obtain ⟨rfl, h2⟩ := h
      obtain ⟨h3, h4, h5⟩ := ih b2 x y c d
        (fun w hw => ha w (by simp [hw])) (fun w hw => hb w (by simp [hw])) hc hd h2
      exact ⟨by rw [h3], h4, h5⟩

/-- The three kinds of nodes a filename is assigned to. -/
inductive NodeId where
  | cat (i : Nat)
  | sub (i j : Nat)
  | grp (k : Nat)
deriving DecidableEq

def fileOfNode : NodeId → String
  | .cat i => fileOfCat i
  | .sub i j => fileOfSub i j
  | .grp k => fileOfGroup k

lemma stringMk_inj {l1 l2 : List Char} (h : String.mk l1 = String.mk l2) : l1 = l2 := by
  simpa using congrArg String.data h

lemma fileOfNode_injective : Function.Injective fileOfNode := by
  intro a b h
  cases a with
  | cat i =>
    cases b with
    | cat i2 =>
      have h2 := stringMk_inj h
      simp only [htmlSuffix, List.cons.injEq, true_and] at h2
      obtain ⟨hp, -, -⟩ := digit_prefix_cancel (padNum 2 i) (padNum 2 i2)
        ['h', 't', 'm', 'l'] ['h', 't', 'm', 'l'] '.' '.'
        padNum_digits padNum_digits (by decide) (by decide) h2
      rw [padNum_inj hp]
    | sub i2 j2 =>
      have h2 := stringMk_inj h
      simp only [htmlSuffix, List.cons.injEq, true_and] at h2
      obtain ⟨-, hcd, -⟩ := digit_prefix_cancel (padNum 2 i) (padNum 2 i2)
        ['h', 't', 'm', 'l'] ('s' :: (padNum 2 j2 ++ ['.', 'h', 't', 'm', 'l'])) '.' '_'
        padNum_digits padNum_digits (by decide) (by decide) h2
      exact absurd hcd (by decide)
    | grp k2 =>
      have h2 := stringMk_inj h
      simp at h2
  | sub i j =>
    cases b with
    | cat i2 =>
      have h2 := stringMk_inj h
      simp only [htmlSuffix, List.cons.injEq, true_and] at h2
      obtain ⟨-, hcd, -⟩ := digit_prefix_cancel (padNum 2 i) (padNum 2 i2)
        ('s' :: (padNum 2 j ++ ['.', 'h', 't', 'm', 'l'])) ['h', 't', 'm', 'l'] '_' '.'
        padNum_digits padNum_digits (by decide) (by decide) h2
      exact absurd hcd (by decide)
    | sub i2 j2 =>
      have h2 := stringMk_inj h
      simp only [htmlSuffix, List.cons.injEq, true_and] at h2
      obtain ⟨hp, -, htail⟩ := digit_prefix_cancel (padNum 2 i) (padNum 2 i2)
        ('s' :: (padNum 2 j ++ ['.', 'h', 't', 'm', 'l']))
        ('s' :: (padNum 2 j2 ++ ['.', 'h', 't', 'm', 'l'])) '_' '_'
        padNum_digits padNum_digits (by decide) (by decide) h2
      simp only [List.cons.injEq, true_and] at htail
      obtain ⟨hq, -, -⟩ := digit_prefix_cancel (padNum 2 j) (padNum 2 j2)
        ['h', 't', 'm', 'l'] ['h', 't', 'm', 'l'] '.' '.'
        padNum_digits padNum_digits (by decide) (by decide) htail
      rw [padNum_inj hp, padNum_inj hq]
    | grp k2 =>
      have h2 := stringMk_inj h
      simp at h2
  | grp k =>
    cases b with
    | cat i2 =>
      have h2 := stringMk_inj h
      simp at h2
    | sub i2 j2 =>
      have h2 := stringMk_inj h
      simp at h2
    | grp k2 =>
      have h2 := stringMk_inj h
      simp only [htmlSuffix, List.cons.injEq, true_and] at h2
      obtain ⟨hp, -, -⟩ := digit_prefix_cancel (padNum 4 k) (padNum 4 k2)
        ['h', 't', 'm', 'l'] ['h', 't', 'm', 'l'] '.' '.'
        padNum_digits padNum_digits (by decide) (by decide) h2
      rw [padNum_inj hp]

/-! #### The node identities the two passes assign, with their counters -/

def sumGroups (ss : List Subcategory) : Nat := (ss.map fun s => s.groups.length).sum

def sumGroupsTotal (cs : List Category) : Nat :=
  (cs.map fun c => sumGroups c.subcategories).sum

/-- Group ids `k+1, ..., k+n`. -/
def grpIds (k n : Nat) : List NodeId := (List.range' (k + 1) n).map NodeId.grp

def subIds (i : Nat) : Nat → Nat → List Subcategory → List NodeId
  | _, _, [] => []
  | j, k, s :: ss =>
    NodeId.sub i j ::
      (grpIds k s.groups.length ++ subIds i (j + 1) (k + s.groups.length) ss)

def catIds : Nat → Nat → List Category → List NodeId
  | _, _, [] => []
  | i, k, c :: cs =>
    NodeId.cat i ::
      (subIds i 1 k c.subcategories ++ catIds (i + 1) (k + sumGroups c.subcategories) cs)

lemma assignGroupsG_snd (k : Nat) (gs : List Group) :
    (assignGroupsG k gs).2 = k + gs.length := by
  induction gs generalizing k with
  | nil => simp [assignGroupsG]
  | cons g gs ih =>
    simp only [assignGroupsG, List.length_cons]
    rw [ih]
    omega

lemma assignGroupsG_files (k : Nat) (gs : List Group) :
    (assignGroupsG k gs).1.map (fun g => g.file) = (grpIds k gs.length).map fileOfNode := by
  induction gs generalizing k with
  | nil => simp [assignGroupsG, grpIds]
  | cons g gs ih =>
    simp only [assignGroupsG, List.map_cons]
    rw [ih]
    simp only [grpIds, List.length_cons, List.range'_succ, List.map_cons]
    rfl

lemma subPass (i : Nat) (ss : List Subcategory) : ∀ j k,
    ((assignGroupsS k (assignSub i j ss)).1.flatMap
        fun s => s.file :: s.groups.map fun g => g.file)
      = (subIds i j k ss).map fileOfNode ∧
    (assignGroupsS k (assignSub i j ss)).2 = k + sumGroups ss := by
  induction ss with
  | nil =>
    intro j k
    constructor
    · simp [assignSub, assignGroupsS, subIds]
    · simp [assignSub, assignGroupsS, sumGroups]
  | cons s ss ih =>
    intro j k
    have hsum : sumGroups (s :: ss) = s.groups.length + sumGroups ss := by
      simp [sumGroups]
    have hg1 := assignGroupsG_files k s.groups
    have hg2 := assignGroupsG_snd k s.groups
    have hih := ih (j + 1) (k + s.groups.length)
    constructor
    · simp only [assignSub, assignGroupsS, List.flatMap_cons]
      rw [hg2, hg1, hih.1]
      simp only [subIds, List.map_cons, List.map_append, List.cons_append]
      rfl
    · simp only [assignSub, assignGroupsS]
      rw [hg2, hih.2, hsum]
      omega

lemma catPass (cs : List Category) : ∀ i k,
    allFiles ((assignGroupsC k (assignCatSub i cs)).1) = (catIds i k cs).map fileOfNode ∧
    (assignGroupsC k (assignCatSub i cs)).2 = k + sumGroupsTotal cs := by
  induction cs with
  | nil =>
    intro i k
    constructor
    · simp [assignCatSub, assignGroupsC, allFiles, catIds]
    · simp [assignCatSub, assignGroupsC, sumGroupsTotal]
  | cons c cs ih =>
    intro i k
    have hsum : sumGroupsTotal (c :: cs) = sumGroups c.subcategories + sumGroupsTotal cs := by
      simp [sumGroupsTotal]
    have hs := subPass i c.subcategories 1 k
    have hih := ih (i + 1) (k + sumGroups c.subcategories)
    constructor
    · simp only [assignCatSub, assignGroupsC, allFiles, List.flatMap_cons] at hih ⊢
      rw [hs.2, hs.1, hih.1]
      simp only [catIds, List.map_cons, List.map_append, List.cons_append]
      rfl
    · simp only [assignCatSub, assignGroupsC]
      rw [hs.2, hih.2, hsum]
      omega

/-! #### The assigned node identities are pairwise distinct -/

lemma mem_grpIds {x : NodeId} {k n : Nat} (h : x ∈ grpIds k n) :
    ∃ k2, x = NodeId.grp k2 ∧ k < k2 ∧ k2 ≤ k + n := by
  unfold grpIds at h
  obtain ⟨m, hm, rfl⟩ := List.mem_map.mp h
  have h2 := List.mem_range'_1.mp hm
  exact ⟨m, rfl, by omega, by omega⟩

lemma nodup_grpIds (k n : Nat) : (grpIds k n).Nodup := by
  unfold grpIds
  refine List.Nodup.map ?_ (List.nodup_range' _ _)
  intro a b hab
  injection hab

lemma mem_subIds {x : NodeId} {i : Nat} : ∀ {j k : Nat} {ss : List Subcategory},
    x ∈ subIds i j k ss →
    (∃ j2, x = NodeId.sub i j2 ∧ j ≤ j2) ∨
    (∃ k2, x = NodeId.grp k2 ∧ k < k2 ∧ k2 ≤ k + sumGroups ss) := by
  intro j k ss
  induction ss generalizing j k with
  | nil => intro h; simp [subIds] at h
  | cons s ss ih =>
    intro h
    have hsum : sumGroups (s :: ss) = s.groups.length + sumGroups ss := by
      simp [sumGroups]
    simp only [subIds] at h
    rcases List.mem_cons.mp h with h1 | h1
    · exact Or.inl ⟨j, h1, le_refl j⟩
    · rcases List.mem_append.mp h1 with h2 | h2
      · obtain ⟨k2, rfl, hk1, hk2⟩ := mem_grpIds h2
        exact Or.inr ⟨k2, rfl, hk1, by omega⟩
      · rcases ih h2 with ⟨j2, rfl, hj⟩ | ⟨k2, rfl, hk1, hk2⟩
        · exact Or.inl ⟨j2, rfl, by omega⟩
        · exact Or.inr ⟨k2, rfl, by omega, by omega⟩

lemma nodup_subIds (i : Nat) (ss : List Subcategory) :
    ∀ j k, (subIds i j k ss).Nodup := by
  induction ss with
  | nil => intro j k; simp [subIds]
  | cons s ss ih =>
    intro j k
    simp only [subIds]
    rw [List.nodup_cons]
    constructor
    · intro hmem
      rcases List.mem_append.mp hmem with h1 | h1
      · obtain ⟨k2, heq, -, -⟩ := mem_grpIds h1
        simp at heq
      · rcases mem_subIds h1 with ⟨j2, heq, hj⟩ | ⟨k2, heq, -, -⟩
        · injection heq with ha hb
          omega
        · simp at heq
    · rw [List.nodup_append]
      refine ⟨nodup_grpIds _ _, ih _ _, ?_⟩
      intro x hx1 hx2
      obtain ⟨k2, rfl, hk1, hk2⟩ := mem_grpIds hx1
      rcases mem_subIds hx2 with ⟨j2, heq, -⟩ | ⟨k3, heq, hk3, -⟩
      · simp at heq
      · injection heq with hk
        omega

lemma mem_catIds {x : NodeId} : ∀ {i k : Nat} {cs : List Category},
    x ∈ catIds i k cs →
    (∃ i2, x = NodeId.cat i2 ∧ i ≤ i2) ∨
    (∃ i2 j2, x = NodeId.sub i2 j2 ∧ i ≤ i2) ∨
    (∃ k2, x = NodeId.grp k2 ∧ k < k2 ∧ k2 ≤ k + sumGroupsTotal cs) := by
  intro i k cs
  induction cs generalizing i k with
  | nil => intro h; simp [catIds] at h
  | cons c cs ih =>
    intro h
    have hsum : sumGroupsTotal (c :: cs) = sumGroups c.subcategories + sumGroupsTotal cs := by
      simp [sumGroupsTotal]
    simp only [catIds] at h
    rcases List.mem_cons.mp h with h1 | h1
    · exact Or.inl ⟨i, h1, le_refl i⟩
    · rcases List.mem_append.mp h1 with h2 | h2
      · rcases mem_subIds h2 with ⟨j2, rfl, hj⟩ | ⟨k2, rfl, hk1, hk2⟩
        · exact Or.inr (Or.inl ⟨i, j2, rfl, le_refl i⟩)
        · exact Or.inr (Or.inr ⟨k2, rfl, hk1, by omega⟩)
      · rcases ih h2 with ⟨i2, rfl, hi⟩ | ⟨i2, j2, rfl, hi⟩ | ⟨k2, rfl, hk1, hk2⟩
        · exact Or.inl ⟨i2, rfl, by omega⟩
        · exact Or.inr (Or.inl ⟨i2, j2, rfl, by omega⟩)
        · exact Or.inr (Or.inr ⟨k2, rfl, by omega, by omega⟩)

lemma nodup_catIds (cs : List Category) : ∀ i k, (catIds i k cs).Nodup := by
  induction cs with
  | nil => intro i k; simp [catIds]
  | cons c cs ih =>
    intro i k
    simp only [catIds]
    rw [List.nodup_cons]
    constructor
    · intro hmem
      rcases List.mem_append.mp hmem with h1 | h1
      · rcases mem_subIds h1 with ⟨j2, heq, -⟩ | ⟨k2, heq, -, -⟩ <;> simp at heq
      · rcases mem_catIds h1 with ⟨i2, heq, hi⟩ | ⟨i2, j2, heq, hi⟩ | ⟨k2, heq, -, -⟩
        · injection heq with hi2
          omega
        · simp at heq
        · simp at heq
    · rw [List.nodup_append]
      refine ⟨nodup_subIds i c.subcategories 1 k, ih (i + 1) _, ?_⟩
      intro x hx1 hx2
      rcases mem_subIds hx1 with ⟨j2, rfl, -⟩ | ⟨k2, rfl, hk1, hk2⟩
      · rcases mem_catIds hx2 with ⟨i2, heq, hi⟩ | ⟨i2, j2b, heq, hi⟩ | ⟨k2, heq, -, -⟩
        · simp at heq
        · injection heq with ha hb
          omega
        · simp at heq
      · rcases mem_catIds hx2 with ⟨i2, heq, hi⟩ | ⟨i2, j2b, heq, hi⟩ | ⟨k3, heq, hk3, -⟩
        · simp at heq
        · simp at heq
        · injection heq with hk
          omega

/-- C8: after the filename assignment of one full build, the filenames of
all nodes of the tree — categories (`c{NN}.html`), subcategories
(`c{NN}_s{MM}.html`), and groups (`g{NNNN}.html`, numbered by one global
counter over all groups) — are pairwise distinct. -/
theorem c8_filenames_nodup :
    ∀ cats : List Category, (allFiles (assignFilenames cats)).Nodup := by
  intro cats
  unfold assignFilenames
  rw [(catPass cats 1 0).1]
  exact List.Nodup.map fileOfNode_injective (nodup_catIds cats 1 0)

end BuildChm
